import Mathlib

/-!
Verification of the job-pipeline core of an asynchronous RAG chat backend
(Rust). The Rust source is shallowly embedded:

* Rust `&str` / `String` used by the paragraph chunker is modelled as
  `List Char` (`Str`); `str::len` (UTF-8 byte count) is `blen`, summing
  `Char.utf8Size` over the characters.
* `Uuid` values and `Uuid::new_v4()` draws are modelled as natural numbers
  drawn from a fresh-supply counter passed explicitly; `Utc::now()` is a
  `Nat` timestamp passed explicitly.
* `f32` arithmetic (cosine similarity, search scores) is modelled in exact
  real arithmetic over `ℝ`.
* Fallible Redis commands are modelled by an explicit success flag per
  command; serialized JSON values stored in Redis are modelled as the
  structures themselves.
-/

/-- Rust string slices, as their character sequences. -/
abbrev Str := List Char

/-- `str::len`: the length in bytes of the UTF-8 encoding. -/
def blen (s : Str) : Nat := (s.map Char.utf8Size).sum

/-- `str::trim`: remove leading and trailing whitespace. -/
def trim (s : Str) : Str :=
  ((s.dropWhile Char.isWhitespace).reverse.dropWhile Char.isWhitespace).reverse

/-- The paragraph separator `"\n\n"`. -/
def sep : Str := ['\n', '\n']

/-- `content.split("\n\n")`: split on each non-overlapping occurrence of the
two-newline separator, scanning left to right; `""` splits to `[""]`. -/
def split_paragraphs : Str → List Str
  | [] => [[]]
  | '\n' :: '\n' :: rest => [] :: split_paragraphs rest
  | c :: rest =>
    match split_paragraphs rest with
    | [] => [[c]]
    | p :: ps => (c :: p) :: ps

/-- `ChunkMetadata` (src/domain/entities/document.rs); the Rust field
`section` is called `sectionName` here because `section` is a Lean keyword. -/
structure ChunkMetadata where
  page : Option Nat := none
  sectionName : Option String := none
deriving DecidableEq

/-- `DocumentChunk` (src/domain/entities/document.rs); `id` and
`document_id` are modelled UUIDs. -/
structure DocumentChunk where
  id : Nat
  document_id : Nat
  content : Str
  chunk_index : Nat
  metadata : ChunkMetadata
deriving DecidableEq

/-- `DocumentChunk::new`: the `Uuid::new_v4()` draw is the explicit
argument `fresh`; metadata is defaulted. -/
def DocumentChunk.new (fresh document_id : Nat) (content : Str)
    (chunk_index : Nat) : DocumentChunk :=
  ⟨fresh, document_id, content, chunk_index, {}⟩

/-- The paragraph list of the domain chunker
(src/domain/entities/document.rs, lines 82-86): split on `"\n\n"`, trim
each piece, drop empties. -/
def paragraphs (content : Str) : List Str :=
  ((split_paragraphs content).map trim).filter (fun s => !s.isEmpty)

/-- The accumulation loop of `chunk_content`
(src/domain/entities/document.rs, lines 88-112): walk the paragraphs with a
current buffer; flush when the buffer is non-empty and would exceed
`chunk_size` with the incoming paragraph joined by the separator; after the
loop flush a non-empty buffer. Each emitted chunk draws one fresh id. -/
def chunkLoop (document_id chunk_size : Nat) :
    List Str → Str → Nat → Nat → List DocumentChunk
  | [], current_chunk, chunk_index, fresh =>
    if current_chunk.isEmpty then []
    else [DocumentChunk.new fresh document_id current_chunk chunk_index]
  | paragraph :: ps, current_chunk, chunk_index, fresh =>
    if current_chunk.isEmpty = false ∧
        blen current_chunk + blen paragraph + 2 > chunk_size then
      DocumentChunk.new fresh document_id current_chunk chunk_index ::
        chunkLoop document_id chunk_size ps paragraph (chunk_index + 1) (fresh + 1)
    else
      chunkLoop document_id chunk_size ps
        (if current_chunk.isEmpty then paragraph
         else current_chunk ++ sep ++ paragraph)
        chunk_index fresh

/-- `chunk_content` (src/domain/entities/document.rs, lines 81-113). -/
def chunk_content (document_id : Nat) (content : Str) (chunk_size : Nat)
    (fresh : Nat) : List DocumentChunk :=
  chunkLoop document_id chunk_size (paragraphs content) [] 0 fresh

namespace Worker

/-- The paragraph list of the worker's private chunker (src/worker.rs,
lines 314-317): split on `"\n\n"`, drop pieces that trim to empty (the trim
itself happens inside the loop). -/
def paragraphs (content : Str) : List Str :=
  (split_paragraphs content).filter (fun s => !(trim s).isEmpty)

/-- The accumulation loop of the worker's `chunk_content` (src/worker.rs,
lines 319-354): same walk as the domain chunker, but each incoming
paragraph is trimmed inside the loop. -/
def chunkLoop (document_id chunk_size : Nat) :
    List Str → Str → Nat → Nat → List DocumentChunk
  | [], current_chunk, chunk_index, fresh =>
    if current_chunk.isEmpty then []
    else [⟨fresh, document_id, current_chunk, chunk_index, {}⟩]
  | para :: ps, current_chunk, chunk_index, fresh =>
    if current_chunk.isEmpty = false ∧
        blen current_chunk + blen (trim para) + 2 > chunk_size then
      (⟨fresh, document_id, current_chunk, chunk_index, {}⟩ : DocumentChunk) ::
        chunkLoop document_id chunk_size ps (trim para) (chunk_index + 1) (fresh + 1)
    else
      chunkLoop document_id chunk_size ps
        (if current_chunk.isEmpty then trim para
         else current_chunk ++ sep ++ trim para)
        chunk_index fresh

/-- The worker's private `chunk_content` (src/worker.rs, lines 313-355). -/
def chunk_content (document_id : Nat) (content : Str) (chunk_size : Nat)
    (fresh : Nat) : List DocumentChunk :=
  Worker.chunkLoop document_id chunk_size (Worker.paragraphs content) [] 0 fresh

end Worker

/-- `DocumentService` (src/application/services/document.rs), reduced to
the `chunk_size` field its chunker reads. -/
structure DocumentService where
  chunk_size : Nat

namespace DocumentService

/-- The paragraph list of `DocumentService::chunk_content`
(src/application/services/document.rs, lines 67-70), identical in shape to
the worker's. -/
def paragraphsOf (content : Str) : List Str :=
  (split_paragraphs content).filter (fun s => !(trim s).isEmpty)

/-- The accumulation loop of `DocumentService::chunk_content`
(src/application/services/document.rs, lines 72-109); the Rust body
duplicates the worker's loop with `self.chunk_size` for the bound. -/
def chunkLoop (document_id chunk_size : Nat) :
    List Str → Str → Nat → Nat → List DocumentChunk
  | [], current_chunk, chunk_index, fresh =>
    if current_chunk.isEmpty then []
    else [⟨fresh, document_id, current_chunk, chunk_index, {}⟩]
  | para :: ps, current_chunk, chunk_index, fresh =>
    if current_chunk.isEmpty = false ∧
        blen current_chunk + blen (trim para) + 2 > chunk_size then
      (⟨fresh, document_id, current_chunk, chunk_index, {}⟩ : DocumentChunk) ::
        chunkLoop document_id chunk_size ps (trim para) (chunk_index + 1) (fresh + 1)
    else
      chunkLoop document_id chunk_size ps
        (if current_chunk.isEmpty then trim para
         else current_chunk ++ sep ++ trim para)
        chunk_index fresh

/-- `DocumentService::chunk_content`
(src/application/services/document.rs, lines 66-110). -/
def chunk_content (svc : DocumentService) (document_id : Nat) (content : Str)
    (fresh : Nat) : List DocumentChunk :=
  DocumentService.chunkLoop document_id svc.chunk_size
    (DocumentService.paragraphsOf content) [] 0 fresh

end DocumentService

/-! ### Embeddings and cosine similarity

`Embedding(Vec<f32>)` is modelled as `List ℝ`; `f32` arithmetic is exact
real arithmetic here, so these definitions are noncomputable. -/

/-- `Embedding::cosine_similarity` (src/domain/entities/embedding.rs,
lines 23-37): zero on length mismatch or empty input, zero when either
norm is zero, otherwise the normalized dot product. -/
noncomputable def cosine_similarity (a b : List ℝ) : ℝ :=
  if a.length ≠ b.length ∨ a.isEmpty then 0
  else
    let dot_product : ℝ := (List.zipWith (fun x y => x * y) a b).sum
    let norm_a : ℝ := Real.sqrt (a.map (fun x => x * x)).sum
    let norm_b : ℝ := Real.sqrt (b.map (fun x => x * x)).sum
    if norm_a = 0 ∨ norm_b = 0 then 0
    else dot_product / (norm_a * norm_b)

/-- `SearchResult` (src/domain/entities/document.rs, lines 71-75). -/
structure SearchResult where
  chunk : DocumentChunk
  score : ℝ

/-- One `(DocumentChunk, Embedding)` pair held by `InMemoryVectorStore`
(src/infrastructure/vector_store/in_memory.rs, line 8). -/
structure StoreEntry where
  chunk : DocumentChunk
  embedding : List ℝ

/-- `InMemoryVectorStore::upsert`
(src/infrastructure/vector_store/in_memory.rs, lines 27-40): retain the
entries whose chunk id differs, then push the new pair. -/
def upsert (store : List StoreEntry) (chunk : DocumentChunk)
    (embedding : List ℝ) : List StoreEntry :=
  (store.filter (fun e => e.chunk.id ≠ chunk.id)) ++ [⟨chunk, embedding⟩]

/-- `InMemoryVectorStore::delete_by_document`
(src/infrastructure/vector_store/in_memory.rs, lines 71-79): retain the
entries whose chunk's `document_id` differs. -/
def delete_by_document (store : List StoreEntry) (document_id : Nat) :
    List StoreEntry :=
  store.filter (fun e => e.chunk.document_id ≠ document_id)

/-- The mapping step of `InMemoryVectorStore::search`
(src/infrastructure/vector_store/in_memory.rs, lines 52-64): score every
stored embedding against the query. -/
noncomputable def score_entries (query : List ℝ) (store : List StoreEntry) :
    List SearchResult :=
  store.map (fun e => ⟨e.chunk, cosine_similarity query e.embedding⟩)

/-- The comparator of `search`'s `sort_by`
(src/infrastructure/vector_store/in_memory.rs, line 66): descending by
score. It is applied to index-tagged results: Rust's `sort_by` is a
stable sort, which is modelled as `List.insertionSort` (itself stable)
over entries tagged with their position in the stored list. -/
def scoreRel (a b : Nat × SearchResult) : Prop := b.2.score ≤ a.2.score

noncomputable instance : DecidableRel scoreRel :=
  fun a b => inferInstanceAs (Decidable (b.2.score ≤ a.2.score))

instance : IsTotal (Nat × SearchResult) scoreRel :=
  ⟨fun a b => (le_total b.2.score a.2.score).imp (fun h => h) (fun h => h)⟩

instance : IsTrans (Nat × SearchResult) scoreRel :=
  ⟨fun _ _ _ h1 h2 => le_trans h2 h1⟩

/-- `InMemoryVectorStore::search` before erasing the stability tags:
score all entries, stable-sort descending by score, take `top_k`. -/
noncomputable def search_tagged (store : List StoreEntry) (query : List ℝ)
    (top_k : Nat) : List (Nat × SearchResult) :=
  (((score_entries query store).enum).insertionSort scoreRel).take top_k

/-- `InMemoryVectorStore::search`
(src/infrastructure/vector_store/in_memory.rs, lines 42-69). -/
noncomputable def search (store : List StoreEntry) (query : List ℝ)
    (top_k : Nat) : List SearchResult :=
  (search_tagged store query top_k).map Prod.snd

/-! ### Conversations, jobs, broker keys -/

/-- `MessageRole` (src/domain/entities/conversation.rs, lines 62-68). -/
inductive MessageRole where
  | system
  | user
  | assistant
deriving DecidableEq

/-- `Message` (src/domain/entities/conversation.rs, lines 47-51). -/
structure Message where
  role : MessageRole
  content : String
deriving DecidableEq

/-- `Conversation` (src/domain/entities/conversation.rs, lines 5-11);
timestamps are `Nat` instants. -/
structure Conversation where
  id : Nat
  messages : List Message
  created_at : Nat
  updated_at : Nat
deriving DecidableEq

/-- `Conversation::new` (src/domain/entities/conversation.rs, lines
13-22): a fresh id is drawn from `Uuid::new_v4()` (the explicit argument
`fresh`), the message list starts empty, both timestamps are `now`. -/
def Conversation.new (fresh now : Nat) : Conversation :=
  ⟨fresh, [], now, now⟩

/-- `Conversation::add_message` (src/domain/entities/conversation.rs,
lines 24-30): append the message and refresh `updated_at`. -/
def Conversation.add_message (c : Conversation) (role : MessageRole)
    (content : String) (now : Nat) : Conversation :=
  { c with messages := c.messages ++ [⟨role, content⟩], updated_at := now }

/-- `QueueJobStatus` (src/infrastructure/queue/jobs.rs, lines 23-30). -/
inductive QueueJobStatus where
  | pending
  | processing
  | completed
  | failed
deriving DecidableEq

/-- The JSON `result` payloads the worker writes into terminal status
records, one constructor per job kind (src/worker.rs, lines 200-206,
270-296, 374-386). -/
inductive JobPayload where
  | chat (response : String) (conversation_id : Nat)
  | embed (document_id : Nat) (chunks_created : Nat)
  | index (document_id : Nat) (indexed : Bool) (action : String)
deriving DecidableEq

/-- `JobResult` (src/infrastructure/queue/jobs.rs, lines 32-39). -/
structure JobResult where
  job_id : Nat
  status : QueueJobStatus
  result : Option JobPayload
  error : Option String
  completed_at : Option Nat
deriving DecidableEq

/-- `JobResult::pending` (src/infrastructure/queue/jobs.rs, lines 42-50). -/
def JobResult.pending (job_id : Nat) : JobResult :=
  ⟨job_id, .pending, none, none, none⟩

/-- `JobResult::processing` (src/infrastructure/queue/jobs.rs, lines 52-60). -/
def JobResult.processing (job_id : Nat) : JobResult :=
  ⟨job_id, .processing, none, none, none⟩

/-- `JobResult::completed` (src/infrastructure/queue/jobs.rs, lines 62-70);
`Utc::now()` is the argument `now`. -/
def JobResult.completed (job_id : Nat) (result : JobPayload) (now : Nat) :
    JobResult :=
  ⟨job_id, .completed, some result, none, some now⟩

/-- `JobResult::failed` (src/infrastructure/queue/jobs.rs, lines 72-80). -/
def JobResult.failed (job_id : Nat) (error : String) (now : Nat) : JobResult :=
  ⟨job_id, .failed, none, some error, some now⟩

/-- `ProcessChatJob` (src/infrastructure/queue/jobs.rs, lines 83-89). -/
structure ProcessChatJob where
  job_id : Nat
  message : String
  conversation_id : Option Nat
  agent_id : Option String
deriving DecidableEq

namespace keys

/-- `keys::job_status` (src/infrastructure/queue/jobs.rs, line 14). -/
def job_status (job_id : Nat) : String :=
  "job:status:" ++ toString job_id

/-- `keys::conversation` (src/infrastructure/queue/jobs.rs, line 18). -/
def conversation (conversation_id : Nat) : String :=
  "conversation:" ++ toString conversation_id

end keys

/-- `load_conversation` (src/worker.rs, lines 226-237): the broker is a map
from key to the parsed stored `Conversation` (GET plus `serde_json`
deserialization); an absent key yields `Conversation::new()`, whose id is
the fresh draw `fresh`, not the requested `id`. -/
def load_conversation (store : String → Option Conversation)
    (fresh now : Nat) (id : Nat) : Conversation :=
  match store (keys.conversation id) with
  | some c => c
  | none => Conversation.new fresh now

/-- The effects of `process_chat_job` (src/worker.rs, lines 158-224) that
the broker and the client observe, gathered in one record. -/
structure ChatJobEffects where
  processing_write : JobResult × Nat
  conversation_id : Nat
  loaded : Conversation
  history : List Message
  saved : Option (String × Conversation × Nat)
  final_status : JobResult × Nat

/-- `process_chat_job` (src/worker.rs, lines 158-224) as a pure function
of the broker contents and of its nondeterministic inputs: `freshConvId`
is the `Uuid::new_v4()` draw taken when the job carries no
`conversation_id`, `freshUuid` the draw inside `Conversation::new`,
`response` what `agent.chat_with_history` returns, `now` the clock. On
success the conversation (user turn plus assistant turn) is saved under
`keys::conversation` of the resolved id with the conversation TTL and the
status payload reports that resolved id; on failure nothing is saved. -/
def process_chat_job (store : String → Option Conversation)
    (job : ProcessChatJob) (freshConvId freshUuid : Nat)
    (response : Except String String) (now : Nat)
    (result_ttl conversation_ttl : Nat) : ChatJobEffects :=
  let conversation_id := job.conversation_id.getD freshConvId
  let conv0 := load_conversation store freshUuid now conversation_id
  let conv1 := conv0.add_message .user job.message now
  let history := conv1.messages.take (conv1.messages.length - 1)
  match response with
  | .ok result =>
    let conv2 := conv1.add_message .assistant result now
    { processing_write := (JobResult.processing job.job_id, result_ttl)
      conversation_id := conversation_id
      loaded := conv0
      history := history
      saved := some (keys.conversation conversation_id, conv2, conversation_ttl)
      final_status :=
        (JobResult.completed job.job_id (.chat result conversation_id) now,
          result_ttl) }
  | .error e =>
    { processing_write := (JobResult.processing job.job_id, result_ttl)
      conversation_id := conversation_id
      loaded := conv0
      history := history
      saved := none
      final_status := (JobResult.failed job.job_id e now, result_ttl) }

/-! ### The job producer -/

/-- The broker state the producer touches: one list per queue key, and a
TTL-bearing value per record key. Stored values are serialized
`JobResult`s; serialization is modelled as the record itself. -/
structure RedisState where
  lists : String → List String
  kv : String → Option (JobResult × Nat)

/-- `LPUSH`: prepend the payload to the queue's list. -/
def RedisState.lpush (st : RedisState) (queue payload : String) : RedisState :=
  { st with lists := fun q => if q = queue then payload :: st.lists q else st.lists q }

/-- `SET ... EX`: store the value with its TTL. -/
def RedisState.set_ex (st : RedisState) (key : String) (v : JobResult)
    (ttl : Nat) : RedisState :=
  { st with kv := fun k => if k = key then some (v, ttl) else st.kv k }

/-- `JobProducer::push_job` (src/api/queue.rs, lines 45-59): left-push the
serialized envelope, then write the pending status record with the result
TTL; each Redis command may fail, modelled by its success flag (`pushOk`,
`setOk`); a failed command leaves the state untouched and the `?` operator
returns the error at once. `RESULT_TTL_SECONDS` is the parameter
`result_ttl` (its defining constant is not part of the staged sources). -/
def push_job (pushOk setOk : Bool) (st : RedisState) (queue : String)
    (job_id : Nat) (payload : String) (result_ttl : Nat) :
    Except String Nat × RedisState :=
  if pushOk = false then (.error "redis", st)
  else
    let st1 := st.lpush queue payload
    if setOk = false then (.error "redis", st1)
    else
      (.ok job_id,
        st1.set_ex (keys.job_status job_id) (JobResult.pending job_id) result_ttl)

/-- Concatenation of pieces with the `"\n\n"` separator between them: the
claim side of chunker paragraph fidelity. -/
def joinSep : List Str → Str
  | [] => []
  | [s] => s
  | s :: rest => s ++ sep ++ joinSep rest

/-- The boundary relation of claim C5 between two consecutive emitted
chunks: the later chunk starts with a paragraph `p` of the input (followed
by nothing or by a separator and more), and flushing happened because the
earlier chunk's buffer would have overflowed `chunk_size` had `p` been
joined to it. -/
def boundaryProp (paras : List Str) (s : Nat) (c1 c2 : DocumentChunk) : Prop :=
  ∃ p ∈ paras, ∃ rest, c2.content = p ++ rest ∧
    (rest = [] ∨ ∃ r, rest = sep ++ r) ∧ blen c1.content + blen p + 2 > s

/-- The projection of a chunk that forgets the freshly drawn id (and the
constant default metadata): what claim C10 compares across the three
chunker copies. -/
def projTriple (c : DocumentChunk) : Str × Nat × Nat :=
  (c.content, c.chunk_index, c.document_id)

/-! ### Basic facts about the string model -/

theorem blen_append (a b : Str) : blen (a ++ b) = blen a + blen b := by
  simp [blen]

theorem isEmpty_eq_false_iff (s : Str) : s.isEmpty = false ↔ s ≠ [] := by
  cases s <;> simp

theorem append_sep_ne_nil (a b : Str) : a ++ sep ++ b ≠ [] := by
  simp [sep]


theorem joinSep_cons (a : Str) (l : List Str) (h : l ≠ []) :
    joinSep (a :: l) = a ++ sep ++ joinSep l := by
  cases l with
  | nil => exact absurd rfl h
  | cons b t => rfl

theorem joinSep_glue (a b : Str) (l : List Str) :
    joinSep ((a ++ sep ++ b) :: l) = joinSep (a :: b :: l) := by
  cases l with
  | nil => simp [joinSep]
  | cons c t =>
    show a ++ sep ++ b ++ sep ++ joinSep (c :: t) =
      a ++ sep ++ (b ++ sep ++ joinSep (c :: t))
    simp [List.append_assoc]

/-! ### The loop invariants of the domain chunker -/

theorem chunkLoop_ne_nil (d s : Nat) :
    ∀ (ps : List Str) (cur : Str) (idx fresh : Nat), cur ≠ [] →
      chunkLoop d s ps cur idx fresh ≠ [] := by
  intro ps
  induction ps with
  | nil =>
    intro cur idx fresh hcur
    simp only [chunkLoop, (isEmpty_eq_false_iff cur).mpr hcur]
    simp
  | cons p ps ih =>
    intro cur idx fresh hcur
    simp only [chunkLoop]
    by_cases hg : cur.isEmpty = false ∧ blen cur + blen p + 2 > s
    · rw [if_pos hg]; simp
    · rw [if_neg hg, (isEmpty_eq_false_iff cur).mpr hcur]
      simp only [Bool.false_eq_true, if_false]
      exact ih (cur ++ sep ++ p) idx fresh (append_sep_ne_nil cur p)

theorem chunkLoop_join (d s : Nat) :
    ∀ (ps : List Str), (∀ p ∈ ps, p ≠ []) → ∀ (cur : Str) (idx fresh : Nat),
      joinSep ((chunkLoop d s ps cur idx fresh).map DocumentChunk.content) =
        if cur.isEmpty then joinSep ps else joinSep (cur :: ps) := by
  intro ps
  induction ps with
  | nil =>
    intro _ cur idx fresh
    by_cases hc : cur.isEmpty
    · simp [chunkLoop, hc, joinSep]
    · simp only [Bool.not_eq_true] at hc
      simp [chunkLoop, hc, joinSep, DocumentChunk.new]
  | cons p ps ih =>
    intro hne cur idx fresh
    have hp : p ≠ [] := hne p (List.mem_cons_self p ps)
    have hps : ∀ q ∈ ps, q ≠ [] := fun q hq => hne q (List.mem_cons_of_mem p hq)
    simp only [chunkLoop]
    by_cases hg : cur.isEmpty = false ∧ blen cur + blen p + 2 > s
    · rw [if_pos hg]
      have hrest : chunkLoop d s ps p (idx + 1) (fresh + 1) ≠ [] :=
        chunkLoop_ne_nil d s ps p (idx + 1) (fresh + 1) hp
      have hmap :
          (chunkLoop d s ps p (idx + 1) (fresh + 1)).map DocumentChunk.content ≠ [] := by
        intro h
        exact hrest (List.map_eq_nil_iff.mp h)
      rw [List.map_cons, joinSep_cons _ _ hmap, ih hps p (idx + 1) (fresh + 1),
        (isEmpty_eq_false_iff p).mpr hp]
      simp only [Bool.false_eq_true, if_false, hg.1]
      rw [joinSep_cons cur (p :: ps) (by simp)]
      rfl
    · rw [if_neg hg]
      by_cases hc : cur.isEmpty = true
      · rw [if_pos hc, ih hps p idx fresh, (isEmpty_eq_false_iff p).mpr hp]
        simp [hc]
      · simp only [Bool.not_eq_true] at hc
        rw [hc]
        simp only [Bool.false_eq_true, if_false]
        rw [ih hps (cur ++ sep ++ p) idx fresh,
          (isEmpty_eq_false_iff _).mpr (append_sep_ne_nil cur p)]
        simp only [Bool.false_eq_true, if_false]
        rw [joinSep_glue]

theorem chunkLoop_map_index (d s : Nat) :
    ∀ (ps : List Str) (cur : Str) (idx fresh : Nat),
      (chunkLoop d s ps cur idx fresh).map DocumentChunk.chunk_index =
        List.range' idx (chunkLoop d s ps cur idx fresh).length := by
  intro ps
  induction ps with
  | nil =>
    intro cur idx fresh
    by_cases hc : cur.isEmpty = true <;> simp [chunkLoop, hc, DocumentChunk.new]
  | cons p ps ih =>
    intro cur idx fresh
    simp only [chunkLoop]
    by_cases hg : cur.isEmpty = false ∧ blen cur + blen p + 2 > s
    · rw [if_pos hg]
      simp only [List.map_cons, List.length_cons, List.range'_succ]
      rw [ih p (idx + 1) (fresh + 1)]
      rfl
    · rw [if_neg hg]
      exact ih _ idx fresh

theorem chunkLoop_map_id (d s : Nat) :
    ∀ (ps : List Str) (cur : Str) (idx fresh : Nat),
      (chunkLoop d s ps cur idx fresh).map DocumentChunk.id =
        List.range' fresh (chunkLoop d s ps cur idx fresh).length := by
  intro ps
  induction ps with
  | nil =>
    intro cur idx fresh
    by_cases hc : cur.isEmpty = true <;> simp [chunkLoop, hc, DocumentChunk.new]
  | cons p ps ih =>
    intro cur idx fresh
    simp only [chunkLoop]
    by_cases hg : cur.isEmpty = false ∧ blen cur + blen p + 2 > s
    · rw [if_pos hg]
      simp only [List.map_cons, List.length_cons, List.range'_succ]
      rw [ih p (idx + 1) (fresh + 1)]
      rfl
    · rw [if_neg hg]
      exact ih _ idx fresh

theorem chunkLoop_document_id (d s : Nat) :
    ∀ (ps : List Str) (cur : Str) (idx fresh : Nat),
      ∀ c ∈ chunkLoop d s ps cur idx fresh, c.document_id = d := by
  intro ps
  induction ps with
  | nil =>
    intro cur idx fresh c hc
    by_cases h : cur.isEmpty = true <;> simp [chunkLoop, h, DocumentChunk.new] at hc
    · subst hc; rfl
  | cons p ps ih =>
    intro cur idx fresh c hc
    simp only [chunkLoop] at hc
    by_cases hg : cur.isEmpty = false ∧ blen cur + blen p + 2 > s
    · rw [if_pos hg] at hc
      rcases List.mem_cons.mp hc with h | h
      · subst h; rfl
      · exact ih p (idx + 1) (fresh + 1) c h
    · rw [if_neg hg] at hc
      exact ih _ idx fresh c hc

theorem chunkLoop_head_content (d s : Nat) :
    ∀ (ps : List Str) (cur : Str) (idx fresh : Nat), cur ≠ [] →
      ∃ c rest, (chunkLoop d s ps cur idx fresh).head? = some c ∧
        c.content = cur ++ rest ∧ (rest = [] ∨ ∃ r, rest = sep ++ r) := by
  intro ps
  induction ps with
  | nil =>
    intro cur idx fresh hcur
    refine ⟨DocumentChunk.new fresh d cur idx, [], ?_, by simp [DocumentChunk.new], Or.inl rfl⟩
    simp [chunkLoop, (isEmpty_eq_false_iff cur).mpr hcur]
  | cons p ps ih =>
    intro cur idx fresh hcur
    simp only [chunkLoop]
    by_cases hg : cur.isEmpty = false ∧ blen cur + blen p + 2 > s
    · rw [if_pos hg]
      exact ⟨DocumentChunk.new fresh d cur idx, [], rfl, by simp [DocumentChunk.new], Or.inl rfl⟩
    · rw [if_neg hg, (isEmpty_eq_false_iff cur).mpr hcur]
      simp only [Bool.false_eq_true, if_false]
      obtain ⟨c, rest, hhead, hcont, _⟩ :=
        ih (cur ++ sep ++ p) idx fresh (append_sep_ne_nil cur p)
      refine ⟨c, sep ++ (p ++ rest), hhead, ?_, Or.inr ⟨p ++ rest, rfl⟩⟩
      rw [hcont]
      simp [List.append_assoc]


theorem chunkLoop_chain (d s : Nat) (paras : List Str)
    (hcl : ∀ q ∈ paras, q ≠ []) :
    ∀ (ps : List Str), ps ⊆ paras → ∀ (cur : Str) (idx fresh : Nat),
      List.Chain' (boundaryProp paras s) (chunkLoop d s ps cur idx fresh) := by
  intro ps
  induction ps with
  | nil =>
    intro _ cur idx fresh
    by_cases hc : cur.isEmpty = true <;>
      simp [chunkLoop, hc, List.chain'_singleton]
  | cons p ps ih =>
    intro hsub cur idx fresh
    have hpmem : p ∈ paras := hsub (List.mem_cons_self p ps)
    have hsub' : ps ⊆ paras := fun q hq => hsub (List.mem_cons_of_mem p hq)
    simp only [chunkLoop]
    by_cases hg : cur.isEmpty = false ∧ blen cur + blen p + 2 > s
    · rw [if_pos hg]
      refine List.chain'_cons'.mpr ⟨?_, ih hsub' p (idx + 1) (fresh + 1)⟩
      intro c2 hc2
      obtain ⟨c, rest, hhead, hcont, hshape⟩ :=
        chunkLoop_head_content d s ps p (idx + 1) (fresh + 1) (hcl p hpmem)
      rw [hhead] at hc2
      cases hc2
      exact ⟨p, hpmem, rest, hcont, hshape, hg.2⟩
    · rw [if_neg hg]
      exact ih hsub' _ idx fresh

theorem blen_nil_lt {s : Nat} {cur : Str} (h : s < blen cur) : cur ≠ [] := by
  intro hc
  subst hc
  simp [blen] at h

theorem chunkLoop_self_mem (d s : Nat) :
    ∀ (ps : List Str) (cur : Str) (idx fresh : Nat), s < blen cur →
      cur ∈ (chunkLoop d s ps cur idx fresh).map DocumentChunk.content := by
  intro ps
  induction ps with
  | nil =>
    intro cur idx fresh hbig
    simp [chunkLoop, (isEmpty_eq_false_iff cur).mpr (blen_nil_lt hbig), DocumentChunk.new]
  | cons p ps _ =>
    intro cur idx fresh hbig
    have hg : cur.isEmpty = false ∧ blen cur + blen p + 2 > s :=
      ⟨(isEmpty_eq_false_iff cur).mpr (blen_nil_lt hbig), by omega⟩
    simp only [chunkLoop]
    rw [if_pos hg]
    simp [DocumentChunk.new]

theorem chunkLoop_oversize_mem (d s : Nat) :
    ∀ (ps : List Str) (cur : Str) (idx fresh : Nat) (p : Str), p ∈ ps →
      s < blen p →
      p ∈ (chunkLoop d s ps cur idx fresh).map DocumentChunk.content := by
  intro ps
  induction ps with
  | nil => intro _ _ _ p hp; exact absurd hp (List.not_mem_nil p)
  | cons q ps ih =>
    intro cur idx fresh p hp hbig
    simp only [chunkLoop]
    rcases List.mem_cons.mp hp with rfl | hmem
    · by_cases hg : cur.isEmpty = false ∧ blen cur + blen p + 2 > s
      · rw [if_pos hg]
        exact List.mem_cons_of_mem _ (chunkLoop_self_mem d s ps p (idx + 1) (fresh + 1) hbig)
      · rw [if_neg hg]
        by_cases hc : cur.isEmpty = true
        · rw [if_pos hc]
          exact chunkLoop_self_mem d s ps p idx fresh hbig
        · exfalso
          simp only [Bool.not_eq_true] at hc
          exact hg ⟨hc, by omega⟩
    · by_cases hg : cur.isEmpty = false ∧ blen cur + blen q + 2 > s
      · rw [if_pos hg]
        exact List.mem_cons_of_mem _ (ih q (idx + 1) (fresh + 1) p hmem hbig)
      · rw [if_neg hg]
        exact ih _ idx fresh p hmem hbig

/-! ### Equivalence of the three chunker copies -/

theorem worker_chunkLoop_eq (d s : Nat) :
    ∀ (ps : List Str) (cur : Str) (idx fresh : Nat),
      Worker.chunkLoop d s ps cur idx fresh =
        chunkLoop d s (ps.map trim) cur idx fresh := by
  intro ps
  induction ps with
  | nil => intro cur idx fresh; rfl
  | cons p ps ih =>
    intro cur idx fresh
    simp only [Worker.chunkLoop, List.map_cons, chunkLoop]
    by_cases hg : cur.isEmpty = false ∧ blen cur + blen (trim p) + 2 > s
    · rw [if_pos hg, if_pos hg, ih]
      rfl
    · rw [if_neg hg, if_neg hg, ih]

theorem service_chunkLoop_eq_worker (d s : Nat) :
    ∀ (ps : List Str) (cur : Str) (idx fresh : Nat),
      DocumentService.chunkLoop d s ps cur idx fresh =
        Worker.chunkLoop d s ps cur idx fresh := by
  intro ps
  induction ps with
  | nil => intro cur idx fresh; rfl
  | cons p ps ih =>
    intro cur idx fresh
    simp only [DocumentService.chunkLoop, Worker.chunkLoop]
    by_cases hg : cur.isEmpty = false ∧ blen cur + blen (trim p) + 2 > s
    · rw [if_pos hg, if_pos hg, ih]
    · rw [if_neg hg, if_neg hg, ih]

theorem filter_trim_map (l : List Str) :
    (l.filter (fun s => !(trim s).isEmpty)).map trim =
      (l.map trim).filter (fun s => !s.isEmpty) := by
  induction l with
  | nil => rfl
  | cons a l ih =>
    by_cases h : (trim a).isEmpty = true <;>
      simp [List.filter_cons, List.map_cons, h, ih]

theorem worker_paragraphs_eq (content : Str) :
    (Worker.paragraphs content).map trim = paragraphs content :=
  filter_trim_map (split_paragraphs content)

theorem worker_chunk_content_eq (d : Nat) (content : Str) (s fresh : Nat) :
    Worker.chunk_content d content s fresh = chunk_content d content s fresh := by
  unfold Worker.chunk_content chunk_content
  rw [worker_chunkLoop_eq, worker_paragraphs_eq]

theorem service_chunk_content_eq (svc : DocumentService) (d : Nat)
    (content : Str) (fresh : Nat) :
    svc.chunk_content d content fresh =
      chunk_content d content svc.chunk_size fresh := by
  unfold DocumentService.chunk_content
  rw [service_chunkLoop_eq_worker]
  show Worker.chunk_content d content svc.chunk_size fresh = _
  exact worker_chunk_content_eq d content svc.chunk_size fresh


theorem chunkLoop_proj_fresh (d s : Nat) :
    ∀ (ps : List Str) (cur : Str) (idx f1 f2 : Nat),
      (chunkLoop d s ps cur idx f1).map projTriple =
        (chunkLoop d s ps cur idx f2).map projTriple := by
  intro ps
  induction ps with
  | nil =>
    intro cur idx f1 f2
    by_cases hc : cur.isEmpty = true <;>
      simp [chunkLoop, hc, DocumentChunk.new, projTriple]
  | cons p ps ih =>
    intro cur idx f1 f2
    simp only [chunkLoop]
    by_cases hg : cur.isEmpty = false ∧ blen cur + blen p + 2 > s
    · rw [if_pos hg, if_pos hg]
      simp only [List.map_cons]
      rw [ih p (idx + 1) (f1 + 1) (f2 + 1)]
      rfl
    · rw [if_neg hg, if_neg hg]
      exact ih _ idx f1 f2

/-! ### The claims about the chunker -/

/-- C2: for every document id, content, chunk size and fresh-id supply,
concatenating the contents of the chunks returned by `chunk_content` with
`"\n\n"` separators yields exactly the concatenation, in input order, of
the trimmed non-empty paragraphs obtained by splitting the content on the
literal two-newline separator. -/
theorem chunker_paragraph_fidelity (d : Nat) (content : Str)
    (chunk_size fresh : Nat) :
    joinSep ((chunk_content d content chunk_size fresh).map
        DocumentChunk.content) =
      joinSep (paragraphs content) := by
  have hne : ∀ p ∈ paragraphs content, p ≠ [] := by
    intro p hp
    have := (List.mem_filter.mp hp).2
    simpa [isEmpty_eq_false_iff] using this
  rw [chunk_content, chunkLoop_join d chunk_size (paragraphs content) hne [] 0 fresh]
  rfl

/-- C6: the chunks returned by `chunk_content` carry contiguous 0-based
`chunk_index` values in output order, all carry the requested document id,
and their freshly drawn ids are pairwise distinct. -/
theorem chunk_index_contiguity (d : Nat) (content : Str)
    (chunk_size fresh : Nat) :
    ((chunk_content d content chunk_size fresh).map DocumentChunk.chunk_index =
        List.range (chunk_content d content chunk_size fresh).length)
    ∧ (∀ c ∈ chunk_content d content chunk_size fresh, c.document_id = d)
    ∧ ((chunk_content d content chunk_size fresh).map DocumentChunk.id).Nodup := by
  refine ⟨?_, ?_, ?_⟩
  · rw [chunk_content, chunkLoop_map_index, List.range_eq_range']
  · intro c hc
    exact chunkLoop_document_id d chunk_size (paragraphs content) [] 0 fresh c hc
  · rw [chunk_content, chunkLoop_map_id]
    exact List.nodup_range' _ _

/-- C5: between any two consecutive chunks emitted by `chunk_content` the
boundary was placed only because the previous buffer (the earlier chunk's
content) plus the next trimmed paragraph plus 2 exceeds `chunk_size` in
bytes; and any single trimmed paragraph longer than `chunk_size` is
emitted as one oversize chunk whose content is exactly that paragraph. -/
theorem chunk_boundary_condition (d : Nat) (content : Str)
    (chunk_size fresh : Nat) :
    List.Chain' (boundaryProp (paragraphs content) chunk_size)
        (chunk_content d content chunk_size fresh)
    ∧ ∀ p ∈ paragraphs content, chunk_size < blen p →
        p ∈ (chunk_content d content chunk_size fresh).map
          DocumentChunk.content := by
  have hne : ∀ p ∈ paragraphs content, p ≠ [] := by
    intro p hp
    have := (List.mem_filter.mp hp).2
    simpa [isEmpty_eq_false_iff] using this
  constructor
  · exact chunkLoop_chain d chunk_size (paragraphs content) hne
      (paragraphs content) (fun _ h => h) [] 0 fresh
  · intro p hp hbig
    exact chunkLoop_oversize_mem d chunk_size (paragraphs content) [] 0 fresh p hp hbig

/-- C10: the three paragraph-chunking implementations (the domain
`chunk_content`, the worker's private `chunk_content` and
`DocumentService::chunk_content`) agree for every document id, content,
chunk size and fresh-id supplies: they produce the same sequence of
(content, chunk_index, document_id) triples, the chunk ids being freshly
generated in each. -/
theorem chunkers_equivalent (d : Nat) (content : Str)
    (chunk_size f1 f2 f3 : Nat) :
    (Worker.chunk_content d content chunk_size f2).map projTriple =
        (chunk_content d content chunk_size f1).map projTriple
    ∧ ((DocumentService.mk chunk_size).chunk_content d content f3).map projTriple =
        (chunk_content d content chunk_size f1).map projTriple := by
  constructor
  · rw [worker_chunk_content_eq, chunk_content, chunk_content]
    exact chunkLoop_proj_fresh d chunk_size (paragraphs content) [] 0 f2 f1
  · rw [service_chunk_content_eq, chunk_content, chunk_content]
    exact chunkLoop_proj_fresh d chunk_size (paragraphs content) [] 0 f3 f1

/-! ### Facts about the modelled search -/

theorem mem_of_mem_enumFrom {α : Type} :
    ∀ (l : List α) (n : Nat) (p : Nat × α), p ∈ l.enumFrom n → p.2 ∈ l := by
  intro l
  induction l with
  | nil => intro n p hp; simp [List.enumFrom] at hp
  | cons a l ih =>
    intro n p hp
    rcases List.mem_cons.mp hp with rfl | h
    · exact List.mem_cons_self a l
    · exact List.mem_cons_of_mem a (ih (n + 1) p h)

theorem search_tagged_mem (store : List StoreEntry) (query : List ℝ)
    (top_k : Nat) :
    ∀ p ∈ search_tagged store query top_k,
      ∃ e ∈ store, p.2.chunk = e.chunk ∧
        p.2.score = cosine_similarity query e.embedding := by
  intro p hp
  have h1 : p ∈ ((score_entries query store).enum).insertionSort scoreRel :=
    List.mem_of_mem_take hp
  have h2 : p ∈ (score_entries query store).enum :=
    (List.mem_insertionSort scoreRel).mp h1
  have h3 : p.2 ∈ score_entries query store :=
    mem_of_mem_enumFrom _ 0 p h2
  obtain ⟨e, he, hev⟩ := List.mem_map.mp h3
  exact ⟨e, he, by rw [← hev], by rw [← hev]⟩

theorem search_mem_store (store : List StoreEntry) (query : List ℝ)
    (top_k : Nat) :
    ∀ r ∈ search store query top_k,
      ∃ e ∈ store, r.chunk = e.chunk ∧
        r.score = cosine_similarity query e.embedding := by
  intro r hr
  obtain ⟨p, hp, hpr⟩ := List.mem_map.mp hr
  obtain ⟨e, he, h1, h2⟩ := search_tagged_mem store query top_k p hp
  exact ⟨e, he, by rw [← hpr]; exact h1, by rw [← hpr]; exact h2⟩

/-! ### The claims about the in-memory vector store -/

/-- C8: `InMemoryVectorStore::upsert` is idempotent: repeating
`upsert(c, e)` leaves the store exactly as one call does, because the
first call removed every entry with the chunk's id before appending the
new pair, and the entry the second call removes is exactly the pair the
first call appended. -/
theorem upsert_idempotent (store : List StoreEntry) (chunk : DocumentChunk)
    (embedding : List ℝ) :
    upsert (upsert store chunk embedding) chunk embedding =
      upsert store chunk embedding := by
  unfold upsert
  rw [List.filter_append, List.filter_filter]
  simp

/-- C9: after `delete_by_document(d)` no entry for document `d` remains:
every surviving entry has a different `document_id`, every result any
subsequent `search` (any query, any `top_k`) returns from the purged
store belongs to a different document, and when nothing matched the store
is unchanged (the call is a harmless no-op). -/
theorem delete_by_document_removes (store : List StoreEntry)
    (document_id : Nat) (query : List ℝ) (top_k : Nat) :
    (∀ e ∈ delete_by_document store document_id,
        e.chunk.document_id ≠ document_id)
    ∧ (∀ r ∈ search (delete_by_document store document_id) query top_k,
        r.chunk.document_id ≠ document_id)
    ∧ ((∀ e ∈ store, e.chunk.document_id ≠ document_id) →
        delete_by_document store document_id = store) := by
  refine ⟨?_, ?_, ?_⟩
  · intro e he
    have := (List.mem_filter.mp he).2
    simpa using this
  · intro r hr
    obtain ⟨e, he, hchunk, _⟩ := search_mem_store _ query top_k r hr
    have := (List.mem_filter.mp he).2
    rw [hchunk]
    simpa using this
  · intro h
    apply List.filter_eq_self.mpr
    intro e he
    simpa using h e he

theorem le_fst_of_mem_enumFrom {α : Type} :
    ∀ (l : List α) (n : Nat) (p : Nat × α), p ∈ l.enumFrom n → n ≤ p.1 := by
  intro l
  induction l with
  | nil => intro n p hp; simp [List.enumFrom] at hp
  | cons a l ih =>
    intro n p hp
    rcases List.mem_cons.mp hp with rfl | h
    · exact Nat.le_refl n
    · exact Nat.le_of_succ_le (ih (n + 1) p h)

theorem enumFrom_pairwise_fst {α : Type} :
    ∀ (l : List α) (n : Nat),
      (l.enumFrom n).Pairwise (fun a b => a.1 < b.1) := by
  intro l
  induction l with
  | nil => intro n; simp [List.enumFrom]
  | cons a l ih =>
    intro n
    refine List.pairwise_cons.mpr ⟨?_, ih (n + 1)⟩
    intro p hp
    exact Nat.lt_of_succ_le (le_fst_of_mem_enumFrom l (n + 1) p hp)

theorem orderedInsert_stable (x : Nat × SearchResult) :
    ∀ l : List (Nat × SearchResult), l.Sorted scoreRel →
      l.Pairwise (fun a b => a.2.score = b.2.score → a.1 < b.1) →
      (∀ y ∈ l, x.1 < y.1) →
      (List.orderedInsert scoreRel x l).Pairwise
        (fun a b => a.2.score = b.2.score → a.1 < b.1) := by
  intro l
  induction l with
  | nil =>
    intro _ _ _
    simp
  | cons y ys ih =>
    intro hs hp hx
    by_cases h : scoreRel x y
    · rw [List.orderedInsert, if_pos h]
      refine List.pairwise_cons.mpr ⟨?_, hp⟩
      intro z hz _
      exact hx z hz
    · rw [List.orderedInsert, if_neg h]
      refine List.pairwise_cons.mpr ⟨?_, ?_⟩
      · intro z hz heq
        rcases (List.mem_orderedInsert scoreRel).mp hz with hzx | hmem
        · subst hzx
          exfalso
          have hlt : z.2.score < y.2.score := lt_of_not_le h
          rw [heq] at hlt
          exact lt_irrefl _ hlt
        · exact (List.pairwise_cons.mp hp).1 z hmem heq
      · exact ih (List.Sorted.of_cons hs) (List.pairwise_cons.mp hp).2
          (fun y' hy' => hx y' (List.mem_cons_of_mem y hy'))

theorem insertionSort_stable :
    ∀ l : List (Nat × SearchResult),
      l.Pairwise (fun a b => a.1 < b.1) →
      (l.insertionSort scoreRel).Pairwise
        (fun a b => a.2.score = b.2.score → a.1 < b.1) := by
  intro l
  induction l with
  | nil => intro _; simp
  | cons a l ih =>
    intro hp
    show (List.orderedInsert scoreRel a (l.insertionSort scoreRel)).Pairwise _
    refine orderedInsert_stable a _ ?_ ?_ ?_
    · exact List.sorted_insertionSort scoreRel l
    · exact ih (List.pairwise_cons.mp hp).2
    · intro y hy
      exact (List.pairwise_cons.mp hp).1 y ((List.mem_insertionSort scoreRel).mp hy)

/-- C4: `InMemoryVectorStore::search(q, k)` returns at most `k` results;
their scores are in non-increasing order; each returned result's score is
the cosine similarity of the query with the stored embedding of the
returned chunk; and (stability of `sort_by`) results with equal scores
keep the insertion order of the store, stated on the index-tagged sort
the model uses: any two tagged results with equal scores appear with
strictly increasing store positions. -/
theorem search_ordering_stability (store : List StoreEntry) (query : List ℝ)
    (top_k : Nat) :
    (search store query top_k).length ≤ top_k
    ∧ (search store query top_k).Sorted (fun r1 r2 => r2.score ≤ r1.score)
    ∧ (∀ r ∈ search store query top_k,
        ∃ e ∈ store, r.chunk = e.chunk ∧
          r.score = cosine_similarity query e.embedding)
    ∧ (search_tagged store query top_k).Pairwise
        (fun a b => a.2.score = b.2.score → a.1 < b.1) := by
  refine ⟨?_, ?_, search_mem_store store query top_k, ?_⟩
  · rw [search, List.length_map, search_tagged, List.length_take]
    exact min_le_left _ _
  · rw [search, List.Sorted, List.pairwise_map]
    have hs : (((score_entries query store).enum).insertionSort scoreRel).Sorted
        scoreRel := List.sorted_insertionSort scoreRel _
    exact List.Pairwise.sublist (List.take_sublist top_k _) hs
  · have hp : ((score_entries query store).enum).Pairwise
        (fun a b => a.1 < b.1) := enumFrom_pairwise_fst _ 0
    have := insertionSort_stable _ hp
    exact List.Pairwise.sublist (List.take_sublist top_k _) this

/-! ### The claims about the producer and the chat worker -/

/-- C7: `JobProducer::push_job` left-pushes the envelope first and only
then writes the pending status record: when the push fails the error is
returned and nothing (in particular no status record) is written; when
the push succeeds the envelope heads the queue in every outcome; if the
status write then fails the error is returned but the envelope stays
enqueued; when both succeed the call returns the job id and the pending
record sits under `job:status:{job_id}` with the result TTL. -/
theorem push_job_ordering (pushOk setOk : Bool) (st : RedisState)
    (queue : String) (job_id : Nat) (payload : String) (result_ttl : Nat) :
    (pushOk = false →
      (push_job pushOk setOk st queue job_id payload result_ttl).1 =
          Except.error "redis"
      ∧ (push_job pushOk setOk st queue job_id payload result_ttl).2 = st)
    ∧ (pushOk = true →
      ((push_job pushOk setOk st queue job_id payload result_ttl).2).lists queue =
          payload :: st.lists queue
      ∧ (setOk = false →
          (push_job pushOk setOk st queue job_id payload result_ttl).1 =
              Except.error "redis"
          ∧ ((push_job pushOk setOk st queue job_id payload result_ttl).2).kv =
              st.kv)
      ∧ (setOk = true →
          (push_job pushOk setOk st queue job_id payload result_ttl).1 =
              Except.ok job_id
          ∧ ((push_job pushOk setOk st queue job_id payload result_ttl).2).kv
              (keys.job_status job_id) =
              some (JobResult.pending job_id, result_ttl))) := by
  cases pushOk <;> cases setOk <;>
    simp [push_job, RedisState.lpush, RedisState.set_ex]

/-- C1 as stated is false: a chat job whose conversation id resolves to an
absent key gets a conversation built by `Conversation::new()`, whose id
field is a freshly drawn UUID (here 1), not the resolved conversation id
(here 7). -/
theorem load_conversation_id_counterexample :
    (load_conversation (fun _ => none) 1 0 7).id ≠ 7
    ∧ (load_conversation (fun _ => none) 1 0 7).messages = [] := by
  exact ⟨by decide, rfl⟩

/-- C1 amended: when the resolved conversation id's key is absent from
the broker, the worker starts from a fresh empty `Conversation` whose id
is the freshly drawn UUID (in general distinct from the resolved id); the
conversation is nonetheless persisted under the key derived from the
resolved conversation id, and that resolved id is the one reported in the
completed job result. -/
theorem chat_job_fresh_conversation (store : String → Option Conversation)
    (job : ProcessChatJob) (freshConvId freshUuid : Nat)
    (response : Except String String) (now result_ttl conversation_ttl : Nat)
    (habsent :
      store (keys.conversation (job.conversation_id.getD freshConvId)) = none) :
    (process_chat_job store job freshConvId freshUuid response now result_ttl
        conversation_ttl).conversation_id = job.conversation_id.getD freshConvId
    ∧ (process_chat_job store job freshConvId freshUuid response now result_ttl
        conversation_ttl).loaded = Conversation.new freshUuid now
    ∧ (process_chat_job store job freshConvId freshUuid response now result_ttl
        conversation_ttl).loaded.messages = []
    ∧ (process_chat_job store job freshConvId freshUuid response now result_ttl
        conversation_ttl).loaded.id = freshUuid
    ∧ ∀ r, response = .ok r →
        (process_chat_job store job freshConvId freshUuid response now
            result_ttl conversation_ttl).saved =
          some (keys.conversation (job.conversation_id.getD freshConvId),
            ((Conversation.new freshUuid now).add_message .user job.message
              now).add_message .assistant r now,
            conversation_ttl)
        ∧ (process_chat_job store job freshConvId freshUuid response now
            result_ttl conversation_ttl).final_status.1 =
          JobResult.completed job.job_id
            (.chat r (job.conversation_id.getD freshConvId)) now := by
  have hload : load_conversation store freshUuid now
      (job.conversation_id.getD freshConvId) = Conversation.new freshUuid now := by
    rw [load_conversation, habsent]
  cases response with
  | ok r =>
    refine ⟨rfl, ?_, ?_, ?_, ?_⟩ <;>
      simp [process_chat_job, hload, Conversation.new]
  | error e =>
    refine ⟨rfl, ?_, ?_, ?_, ?_⟩ <;>
      simp [process_chat_job, hload, Conversation.new]

/-- Witness for the amended C1 at a concrete input: empty broker, a job
asking for conversation 7, fresh draws 5 and 11, agent reply "ok". -/
theorem chat_job_fresh_conversation_witness :
    (process_chat_job (fun _ => none) ⟨3, "hi", some 7, none⟩ 5 11
        (.ok "ok") 0 60 3600).conversation_id = (some 7).getD 5
    ∧ (process_chat_job (fun _ => none) ⟨3, "hi", some 7, none⟩ 5 11
        (.ok "ok") 0 60 3600).loaded = Conversation.new 11 0
    ∧ (process_chat_job (fun _ => none) ⟨3, "hi", some 7, none⟩ 5 11
        (.ok "ok") 0 60 3600).loaded.messages = []
    ∧ (process_chat_job (fun _ => none) ⟨3, "hi", some 7, none⟩ 5 11
        (.ok "ok") 0 60 3600).loaded.id = 11
    ∧ ∀ r, (Except.ok "ok" : Except String String) = .ok r →
        (process_chat_job (fun _ => none) ⟨3, "hi", some 7, none⟩ 5 11
            (.ok "ok") 0 60 3600).saved =
          some (keys.conversation ((some 7).getD 5),
            ((Conversation.new 11 0).add_message .user "hi" 0).add_message
              .assistant r 0,
            3600)
        ∧ (process_chat_job (fun _ => none) ⟨3, "hi", some 7, none⟩ 5 11
            (.ok "ok") 0 60 3600).final_status.1 =
          JobResult.completed 3 (.chat r ((some 7).getD 5)) 0 :=
  chat_job_fresh_conversation (fun _ => none) ⟨3, "hi", some 7, none⟩ 5 11
    (.ok "ok") 0 60 3600 rfl

/-! ### The claims about cosine similarity -/

theorem sumSq_nonneg (a : List ℝ) : 0 ≤ (a.map fun x => x * x).sum := by
  induction a with
  | nil => simp
  | cons x xs ih =>
    simp only [List.map_cons, List.sum_cons]
    exact add_nonneg (mul_self_nonneg x) ih

theorem cauchy_step (x y d A B : ℝ) (hA : 0 ≤ A) (hB : 0 ≤ B)
    (hd : d ^ 2 ≤ A * B) : (x * y + d) ^ 2 ≤ (x * x + A) * (y * y + B) := by
  rcases eq_or_lt_of_le hB with hB0 | hBpos
  · have hd0 : d = 0 := by nlinarith [sq_nonneg d]
    subst hd0
    nlinarith [mul_nonneg hA (sq_nonneg y)]
  · have key : B * ((x * x + A) * (y * y + B) - (x * y + d) ^ 2) =
        (x * B - y * d) ^ 2 + (y ^ 2 + B) * (A * B - d ^ 2) := by ring
    have h2 : 0 ≤ B * ((x * x + A) * (y * y + B) - (x * y + d) ^ 2) := by
      rw [key]
      have := sq_nonneg (x * B - y * d)
      have := mul_nonneg (add_nonneg (sq_nonneg y) hB) (sub_nonneg.mpr hd)
      linarith
    have h3 : 0 ≤ (x * x + A) * (y * y + B) - (x * y + d) ^ 2 :=
      (mul_nonneg_iff_of_pos_left hBpos).mp h2
    linarith

theorem list_cauchy_schwarz :
    ∀ a b : List ℝ,
      ((List.zipWith (fun x y => x * y) a b).sum) ^ 2 ≤
        ((a.map fun x => x * x).sum) * ((b.map fun x => x * x).sum) := by
  intro a
  induction a with
  | nil => intro b; simp
  | cons x xs ih =>
    intro b
    cases b with
    | nil => simp [mul_nonneg (add_nonneg (mul_self_nonneg x) (sumSq_nonneg xs))]
    | cons y ys =>
      simp only [List.zipWith_cons_cons, List.sum_cons, List.map_cons]
      exact cauchy_step x y _ _ _ (sumSq_nonneg xs) (sumSq_nonneg ys) (ih ys)

theorem zipWith_mul_self (a : List ℝ) :
    List.zipWith (fun x y => x * y) a a = a.map fun x => x * x := by
  induction a with
  | nil => rfl
  | cons x xs ih => simp [ih]

/-- C3 amended: for equal-length non-empty real embeddings the cosine
similarity lies in `[-1, 1]`; `cosine_similarity a a = 1` whenever `a`'s
norm is nonzero; a length mismatch or an empty vector yields exactly `0`;
and a zero norm on either side yields exactly `0` (the division is never
reached, which in the `f32` original is what rules out `NaN`). -/
theorem cosine_similarity_bounds (a b : List ℝ) :
    (a.length = b.length → a ≠ [] →
      -1 ≤ cosine_similarity a b ∧ cosine_similarity a b ≤ 1)
    ∧ (Real.sqrt ((a.map fun x => x * x).sum) ≠ 0 →
        cosine_similarity a a = 1)
    ∧ (a.length ≠ b.length ∨ a = [] → cosine_similarity a b = 0)
    ∧ ((Real.sqrt ((a.map fun x => x * x).sum) = 0 ∨
        Real.sqrt ((b.map fun x => x * x).sum) = 0) →
        cosine_similarity a b = 0) := by
  refine ⟨?_, ?_, ?_, ?_⟩
  · intro hlen hne
    have hguard : ¬(a.length ≠ b.length ∨ a.isEmpty) := by
      simp [hlen, hne]
    rw [cosine_similarity, if_neg hguard]
    set d := (List.zipWith (fun x y => x * y) a b).sum with hd
    set na := Real.sqrt ((a.map fun x => x * x).sum) with hna
    set nb := Real.sqrt ((b.map fun x => x * x).sum) with hnb
    by_cases hz : na = 0 ∨ nb = 0
    · rw [if_pos hz]; norm_num
    · rw [if_neg hz]
      push_neg at hz
      have hna0 : 0 ≤ na := Real.sqrt_nonneg _
      have hnb0 : 0 ≤ nb := Real.sqrt_nonneg _
      have hpos : 0 < na * nb :=
        mul_pos (lt_of_le_of_ne hna0 (Ne.symm hz.1))
          (lt_of_le_of_ne hnb0 (Ne.symm hz.2))
      have habs : |d| ≤ na * nb := by
        have h1 : d ^ 2 ≤
            ((a.map fun x => x * x).sum) * ((b.map fun x => x * x).sum) :=
          list_cauchy_schwarz a b
        have h2 : Real.sqrt (d ^ 2) ≤
            Real.sqrt (((a.map fun x => x * x).sum) *
              ((b.map fun x => x * x).sum)) :=
          Real.sqrt_le_sqrt h1
        rw [Real.sqrt_sq_eq_abs, Real.sqrt_mul (sumSq_nonneg a)] at h2
        exact h2
      rw [abs_le] at habs
      constructor
      · rw [le_div_iff₀ hpos]; linarith [habs.1]
      · rw [div_le_one hpos]; exact habs.2
  · intro hn
    have hne : a ≠ [] := by
      intro h
      subst h
      simp at hn
    have hguard : ¬(a.length ≠ a.length ∨ a.isEmpty) := by simp [hne]
    rw [cosine_similarity, if_neg hguard]
    have hz : ¬(Real.sqrt ((a.map fun x => x * x).sum) = 0 ∨
        Real.sqrt ((a.map fun x => x * x).sum) = 0) := by
      simp [hn]
    rw [if_neg hz]
    have hsum : (List.zipWith (fun x y => x * y) a a).sum =
        (a.map fun x => x * x).sum := by rw [zipWith_mul_self]
    have hs0 : (a.map fun x => x * x).sum ≠ 0 := by
      intro h
      exact hn (by rw [h, Real.sqrt_zero])
    show (List.zipWith (fun x y => x * y) a a).sum /
        (Real.sqrt ((a.map fun x => x * x).sum) *
          Real.sqrt ((a.map fun x => x * x).sum)) = 1
    rw [hsum, Real.mul_self_sqrt (sumSq_nonneg a)]
    exact div_self hs0
  · intro h
    have hguard : a.length ≠ b.length ∨ a.isEmpty = true := by
      rcases h with h | h
      · exact Or.inl h
      · exact Or.inr (by simp [h])
    rw [cosine_similarity, if_pos hguard]
  · intro h
    rw [cosine_similarity]
    by_cases hguard : a.length ≠ b.length ∨ a.isEmpty
    · rw [if_pos hguard]
    · rw [if_neg hguard]
      rw [if_pos h]

/-- C3 as stated is false: the zero vector `[0]` has positive length equal
to itself, yet `cosine_similarity [0] [0]` is `0`, not `1` (the zero-norm
guard fires before the division). -/
theorem cosine_self_zero_counterexample :
    cosine_similarity [(0 : ℝ)] [(0 : ℝ)] = 0 ∧ (0 : ℝ) ≠ 1 ∧
      0 < ([(0 : ℝ)]).length := by
  refine ⟨?_, by norm_num, by norm_num⟩
  rw [cosine_similarity]
  rw [if_neg (by simp)]
  rw [if_pos]
  left
  simp
